import Mathlib

/-!
Verification of the participant store, draw engine and grouping engine of the
Lucky-Draw-Grouping application (src/App.tsx), as a shallow embedding.

Modelling conventions:
* JavaScript strings are Lean `String`s; the JS builtins `split("\n")` and
  `trim()` are embedded as executable functions on the underlying character
  lists (`splitLinesChars`, `trimChars`).
* The stream of values produced by `Math.random()` is an explicit parameter:
  a list of fresh id strings for imports, a function `Nat → Nat` giving the
  sampled indices for the draw ticks (the code computes
  `Math.floor(Math.random() * len)`, always in `[0, len)`; we embed the
  sample as `n % len`), and a list of booleans giving the signs of the random
  comparator `() => Math.random() - 0.5` used by the grouping shuffle
  (`true` means the comparator returned a negative value).
* `Array.prototype.sort` (a host-defined stable comparison sort) is embedded
  as stable insertion sort consuming one comparator sign per comparison.
* The `for` loop of `handleGrouping` indexes with a JS number that the code
  can drive negative, so the loop counter and `groupSize` are `Int` and the
  loop is embedded with explicit fuel: a `none` result means the loop ran
  out of any finite fuel, i.e. the source loop does not terminate.
-/

namespace LuckyDraw

/-- A participant, as in `interface Participant { id: string; name: string }`. -/
structure Participant where
  id : String
  name : String
deriving DecidableEq, Repr

/-! ## JS string primitives used by the handlers -/

/-- Whitespace stripped by JS `String.prototype.trim` (the characters that can
occur in this application's single-line inputs). -/
def isJsWs (c : Char) : Bool :=
  c = ' ' ∨ c = '\t' ∨ c = '\n' ∨ c = '\r' ∨ c = '\x0b' ∨ c = '\x0c'

/-- `String.prototype.trim` on the character list: strip leading and trailing
whitespace. -/
def trimChars (l : List Char) : List Char :=
  ((l.dropWhile isJsWs).reverse.dropWhile isJsWs).reverse

/-- `String.prototype.trim`. -/
def jsTrim (s : String) : String :=
  ⟨trimChars s.data⟩

/-- `String.prototype.split("\n")` on the character list: split at every
newline, keeping empty pieces (so `"".split("\n")` is `[""]`). -/
def splitLinesChars : List Char → List (List Char)
  | [] => [[]]
  | c :: cs =>
    if c = '\n' then [] :: splitLinesChars cs
    else
      match splitLinesChars cs with
      | [] => [[c]]
      | w :: ws => (c :: w) :: ws

/-- `text.split('\n')` as a list of strings. -/
def splitLines (s : String) : List String :=
  (splitLinesChars s.data).map fun w => ⟨w⟩

/-! ## Participant store handlers (src/App.tsx) -/

/-- `inputText.split('\n').map(n => n.trim()).filter(n => n !== '')`
from `handleAddFromText`. -/
def parseLines (text : String) : List String :=
  ((splitLines text).map jsTrim).filter (· ≠ "")

/-- `results.data.flat().map(n => String(n).trim()).filter(n => n !== '')`
from `handleFileUpload`; the flattened CSV cells arrive as strings. -/
def parseCells (cells : List String) : List String :=
  (cells.map jsTrim).filter (· ≠ "")

/-- `names.map(name => ({ id: Math.random()..., name }))`: each parsed name is
paired with the next id produced by the random id generator. -/
def mkParticipants (names ids : List String) : List Participant :=
  (names.zip ids).map fun ni => ⟨ni.2, ni.1⟩

/-- The filter-with-a-seen-set idiom used both by the import dedupe and by
`deduplicate`: keep an element only if its name was not seen before, adding
kept names to the seen set. -/
def keepFirst (seen : List String) : List Participant → List Participant
  | [] => []
  | p :: ps =>
    if p.name ∈ seen then keepFirst seen ps
    else p :: keepFirst (p.name :: seen) ps

/-- Shared body of `handleAddFromText` and `handleFileUpload`: build the new
participants from the parsed names, optionally dedupe against the names
already in the store (and within the batch), and append. -/
def addParticipants (dedupe : Bool) (ids : List String) (names : List String)
    (ps : List Participant) : List Participant :=
  let newPs := mkParticipants names ids
  ps ++ (if dedupe then keepFirst (ps.map (·.name)) newPs else newPs)

/-- `handleAddFromText` (the participants-list effect). -/
def handleAddFromText (dedupe : Bool) (ids : List String) (text : String)
    (ps : List Participant) : List Participant :=
  addParticipants dedupe ids (parseLines text) ps

/-- `handleFileUpload` (the participants-list effect on the parsed rows). -/
def handleFileUpload (dedupe : Bool) (ids : List String) (cells : List String)
    (ps : List Participant) : List Participant :=
  addParticipants dedupe ids (parseCells cells) ps

/-- `deduplicate`: keep only the first occurrence of each name. -/
def deduplicate (ps : List Participant) : List Participant :=
  keepFirst [] ps

/-- The per-row delete button: `prev.filter(item => item.id !== p.id)`. -/
def removeParticipant (i : String) (ps : List Participant) : List Participant :=
  ps.filter fun p => p.id ≠ i

/-! ## The random-comparator shuffle of handleGrouping

`[...participants].sort(() => Math.random() - 0.5)` sorts with a comparator
that ignores its arguments and returns a random sign.  `Array.prototype.sort`
is a host-defined stable comparison sort; it is embedded as stable insertion
sort.  The list `bs` holds the comparator outcomes, one consumed per
comparison: `true` means the comparator returned a negative value (the probed
element sorts before the element it is compared with).  An exhausted list
behaves as a non-negative comparator result. -/

/-- Insert one element into the already-sorted tail, consuming one comparator
outcome per comparison. -/
def insertCmp (x : Participant) : List Participant → List Bool → List Participant × List Bool
  | [], bs => ([x], bs)
  | y :: ys, bs =>
    if bs.headI then (x :: y :: ys, bs.tail)
    else
      let p := insertCmp x ys bs.tail
      (y :: p.1, p.2)

/-- Stable insertion sort driven by the comparator outcomes `bs`. -/
def sortCmp : List Participant → List Bool → List Participant × List Bool
  | [], bs => ([], bs)
  | x :: xs, bs =>
    let p := sortCmp xs bs
    insertCmp x p.1 p.2

/-- The shuffled copy `[...participants].sort(() => Math.random() - 0.5)`. -/
def comparatorShuffle (ps : List Participant) (bs : List Bool) : List Participant :=
  (sortCmp ps bs).1

/-- All comparator-outcome sequences of a given length, each equally likely
under `Math.random`. -/
def boolStreams : Nat → List (List Bool)
  | 0 => [[]]
  | n + 1 => (boolStreams n).flatMap fun bs => [false :: bs, true :: bs]

/-- How many of the equally-likely comparator-outcome sequences of length `n`
make the shuffle produce `target`. -/
def shuffleCount (ps target : List Participant) (n : Nat) : Nat :=
  ((boolStreams n).filter fun bs => comparatorShuffle ps bs = target).length

/-! ## The chunking loop of handleGrouping

`for (let i = 0; i < shuffled.length; i += groupSize) {
   newGroups.push(shuffled.slice(i, i + groupSize)); }`
with a JS number index: `groupSize` comes from
`parseInt(e.target.value) || 1` and can be negative, in which case the loop
never terminates, so index and size are `Int` and the loop gets fuel. -/

/-- `Array.prototype.slice(start, end)` with the JS clamping rules for
negative and out-of-range arguments. -/
def jsSlice (l : List Participant) (start stop : Int) : List Participant :=
  let len : Int := l.length
  let s := if start < 0 then max (len + start) 0 else min start len
  let e := if stop < 0 then max (len + stop) 0 else min stop len
  (l.take e.toNat).drop s.toNat

/-- The chunking for-loop; `none` means the fuel ran out, i.e. the source
loop does not terminate within that many iterations. -/
def chunkLoop (size : Int) (shuffled : List Participant) :
    Nat → Int → List (List Participant) → Option (List (List Participant))
  | 0, _, _ => none
  | fuel + 1, i, acc =>
    if i < (shuffled.length : Int) then
      chunkLoop size shuffled fuel (i + size) (acc ++ [jsSlice shuffled i (i + size)])
    else some acc

/-- Reference chunking for a positive size `s + 1`, used to characterise the
loop when it terminates. -/
def chunksPos (s : Nat) : List Participant → List (List Participant)
  | [] => []
  | x :: xs => ((x :: xs).take (s + 1)) :: chunksPos s (xs.drop s)
termination_by l => l.length
decreasing_by simp only [List.length_drop, List.length_cons]; omega

/-! ## Application state and the draw and grouping engines -/

/-- The React state of `App`: `participants`, `drawHistory`, `isDrawing`,
`currentWinner`, `allowRepeat`, `groupSize`, `groups`. -/
structure AppState where
  participants : List Participant
  drawHistory : List Participant
  isDrawing : Bool
  currentWinner : Option Participant
  allowRepeat : Bool
  groupSize : Int
  groups : List (List Participant)
deriving DecidableEq, Repr

/-- The derived eligible set:
`allowRepeat ? participants : participants.filter(p => !drawHistory.find(h => h.id === p.id))`. -/
def availableParticipants (s : AppState) : List Participant :=
  if s.allowRepeat then s.participants
  else s.participants.filter fun p => !(s.drawHistory.any fun h => h.id == p.id)

/-- `arr[Math.floor(Math.random() * arr.length)]`: the raw random value is
embedded as an arbitrary natural number taken modulo the length. -/
def pick (l : List Participant) (n : Nat) : Participant :=
  l.getD (n % l.length) ⟨"", ""⟩

/-- The `setInterval` callback of `startDraw`, run to completion: each tick
publishes a random pick as the transient `currentWinner`; once the counter
reaches `steps`, one further independent pick becomes the committed winner,
is pushed onto the front of the history, and the in-progress flag clears. -/
def tickLoop (avail : List Participant) (r : Nat → Nat) (steps : Nat) :
    Nat → Nat → AppState → AppState
  | 0, _, s => s
  | fuel + 1, counter, s =>
    let s' := { s with currentWinner := some (pick avail (r counter)) }
    let counter' := counter + 1
    if steps ≤ counter' then
      let fw := pick avail (r counter')
      { s' with currentWinner := some fw, drawHistory := fw :: s'.drawHistory,
                isDrawing := false }
    else tickLoop avail r steps fuel counter' s'

/-- `startDraw`, with the whole timed reveal run to completion.  The eligible
set is computed once here and captured by the interval callback.  Note the
only guard inside the function is emptiness of the eligible set. -/
def startDraw (r : Nat → Nat) (s : AppState) : AppState :=
  let avail := availableParticipants s
  if avail.length = 0 then s
  else
    tickLoop avail r (2000 / 50) (2000 / 50) 0
      { s with isDrawing := true, currentWinner := none }

/-- Pressing the DRAW NOW button: the button carries
`disabled={isDrawing || availableParticipants.length === 0}`, so the click
reaches `startDraw` only when enabled. -/
def drawButtonClick (r : Nat → Nat) (s : AppState) : AppState :=
  if s.isDrawing || (availableParticipants s).length == 0 then s
  else startDraw r s

/-- `handleGrouping`: no-op on an empty list, otherwise shuffle a copy with
the random comparator and chunk it; `none` means the chunking loop exhausted
the given fuel (the source loop runs forever). -/
def handleGroupingFuel (bs : List Bool) (fuel : Nat) (s : AppState) : Option AppState :=
  if s.participants.length = 0 then some s
  else
    match chunkLoop s.groupSize (comparatorShuffle s.participants bs) fuel 0 [] with
    | none => none
    | some gs => some { s with groups := gs }

/-- `clearParticipants`: empties the list, the history and the groups. -/
def clearParticipants (s : AppState) : AppState :=
  { s with participants := [], drawHistory := [], groups := [] }

/-- The history Clear button: `onClick={() => setDrawHistory([])}`. -/
def clearHistory (s : AppState) : AppState :=
  { s with drawHistory := [] }

/-- The group-size input: `setGroupSize(parseInt(e.target.value) || 1)`.
`parsed` is the result of `parseInt` (`none` for NaN); `0` and NaN are falsy
and fall back to `1`, but any other integer, negative ones included, is
stored unchanged. -/
def groupSizeOnChange (parsed : Option Int) (s : AppState) : AppState :=
  { s with groupSize :=
      match parsed with
      | none => 1
      | some 0 => 1
      | some k => k }

/-! ## Sequences of participant-store operations -/

/-- The user-triggerable operations on the participant store. -/
inductive StoreOp where
  | addFromLines (text : String) (ids : List String) (dedupe : Bool)
  | addFromRows (cells : List String) (ids : List String) (dedupe : Bool)
  | dedup
  | remove (i : String)
  | clearAll
deriving DecidableEq, Repr

/-- Apply one store operation to the participant list. -/
def applyOp (ps : List Participant) : StoreOp → List Participant
  | .addFromLines t ids dd => handleAddFromText dd ids t ps
  | .addFromRows cs ids dd => handleFileUpload dd ids cs ps
  | .dedup => deduplicate ps
  | .remove i => removeParticipant i ps
  | .clearAll => []

/-- Run a sequence of store operations. -/
def runOps : List StoreOp → List Participant → List Participant
  | [], ps => ps
  | op :: ops, ps => runOps ops (applyOp ps op)

/-- The ids the random id generator hands to an operation. -/
def opIds : StoreOp → List String
  | .addFromLines _ ids _ => ids
  | .addFromRows _ ids _ => ids
  | _ => []

/-- The ParticipantList invariant claimed by the specification: ids are
pairwise distinct and every name is a nonempty trimmed string. -/
def StoreInv (ps : List Participant) : Prop :=
  (ps.map (·.id)).Nodup ∧ ∀ p ∈ ps, jsTrim p.name = p.name ∧ p.name ≠ ""

instance decStoreInv (ps : List Participant) : Decidable (StoreInv ps) := by
  unfold StoreInv
  infer_instance

/-! ## Concrete fixtures used by counterexamples and witnesses -/

/-- Fixture participant A. -/
def pA : Participant := ⟨"1", "A"⟩

/-- Fixture participant B. -/
def pB : Participant := ⟨"2", "B"⟩

/-- Fixture participant C. -/
def pC : Participant := ⟨"3", "C"⟩

/-- A state with one participant and `groupSize = -1`, as produced by typing
`-1` into the group-size input (`parseInt("-1") = -1` is truthy and stored). -/
def negSizeState : AppState :=
  { participants := [⟨"a1", "Alice"⟩], drawHistory := [], isDrawing := false,
    currentWinner := none, allowRepeat := false, groupSize := -1, groups := [] }

/-- A state in which a draw is already in progress. -/
def drawingState : AppState :=
  { participants := [⟨"a1", "Alice"⟩], drawHistory := [], isDrawing := true,
    currentWinner := none, allowRepeat := false, groupSize := 3, groups := [] }

/-- A two-participant idle state. -/
def idleState : AppState :=
  { participants := [⟨"a1", "Alice"⟩, ⟨"b2", "Bob"⟩], drawHistory := [],
    isDrawing := false, currentWinner := none, allowRepeat := false,
    groupSize := 3, groups := [] }

/-- Five participants with `groupSize = 2`, the grouping scenario of the
specification. -/
def groupingState : AppState :=
  { participants := [pA, pB, pC, ⟨"4", "D"⟩, ⟨"5", "E"⟩], drawHistory := [],
    isDrawing := false, currentWinner := none, allowRepeat := false,
    groupSize := 2, groups := [] }

/-! ## Lemmas about trimming -/

theorem dropWhile_head_false {p : Char → Bool} :
    ∀ {l : List Char} {x : Char} {t : List Char},
      List.dropWhile p l = x :: t → p x = false := by
  intro l
  induction l with
  | nil => intro x t h; simp [List.dropWhile] at h
  | cons c cs ih =>
    intro x t h
    rw [List.dropWhile_cons] at h
    by_cases hpc : p c
    · simp [hpc] at h; exact ih h
    · simp [hpc] at h
      rcases h with ⟨hx, -⟩
      rw [hx] at hpc
      exact Bool.eq_false_iff.mpr hpc

theorem trimChars_trimChars (l : List Char) :
    trimChars (trimChars l) = trimChars l := by
  unfold trimChars
  set m := l.dropWhile isJsWs with hm
  set r := m.reverse.dropWhile isJsWs with hr
  have h1 : r.reverse.dropWhile isJsWs = r.reverse := by
    cases hcase : r.reverse with
    | nil => simp
    | cons x t =>
      have hsuf : List.IsSuffix r m.reverse := List.dropWhile_suffix isJsWs
      have hpref : List.IsPrefix r.reverse m :=
        List.reverse_suffix.mp (by rw [List.reverse_reverse]; exact hsuf)
      rcases hpref with ⟨u, hu⟩
      rw [hcase] at hu
      have hx : isJsWs x = false := by
        apply dropWhile_head_false (p := isJsWs) (l := l)
        rw [← hm, ← hu]
        rfl
      rw [List.dropWhile_cons, hx]
      simp
  rw [h1, List.reverse_reverse, hr, List.dropWhile_idempotent]

theorem jsTrim_jsTrim (s : String) : jsTrim (jsTrim s) = jsTrim s := by
  simp only [jsTrim]
  exact congrArg String.mk (trimChars_trimChars s.data)

/-- Every name surviving a trim-and-drop-blanks pass is a nonempty trimmed
string. -/
theorem mem_trim_filter {l : List String} {n : String}
    (h : n ∈ (l.map jsTrim).filter (· ≠ "")) : jsTrim n = n ∧ n ≠ "" := by
  rw [List.mem_filter] at h
  rcases h with ⟨hmem, hne⟩
  rcases List.mem_map.mp hmem with ⟨raw, -, hraw⟩
  refine ⟨?_, by simpa using hne⟩
  rw [← hraw]
  exact jsTrim_jsTrim raw

theorem parseLines_mem {text : String} {n : String} (h : n ∈ parseLines text) :
    jsTrim n = n ∧ n ≠ "" :=
  mem_trim_filter h

theorem parseCells_mem {cells : List String} {n : String} (h : n ∈ parseCells cells) :
    jsTrim n = n ∧ n ≠ "" :=
  mem_trim_filter h

/-! ## Lemmas about the seen-set filter -/

theorem keepFirst_sublist (seen : List String) (l : List Participant) :
    List.Sublist (keepFirst seen l) l := by
  induction l generalizing seen with
  | nil => simp [keepFirst]
  | cons p ps ih =>
    rw [keepFirst]
    by_cases hp : p.name ∈ seen
    · simp only [if_pos hp]
      exact (ih seen).cons p
    · simp only [if_neg hp]
      exact (ih (p.name :: seen)).cons₂ p

theorem keepFirst_not_seen {seen : List String} {l : List Participant} {q : Participant}
    (h : q ∈ keepFirst seen l) : q.name ∉ seen := by
  induction l generalizing seen with
  | nil => simp [keepFirst] at h
  | cons p ps ih =>
    rw [keepFirst] at h
    by_cases hp : p.name ∈ seen
    · rw [if_pos hp] at h
      exact ih h
    · rw [if_neg hp] at h
      rcases List.mem_cons.mp h with hq | hq
      · rw [hq]; exact hp
      · have := ih hq
        intro hcontra
        exact this (List.mem_cons_of_mem _ hcontra)

theorem keepFirst_names_nodup (seen : List String) (l : List Participant) :
    ((keepFirst seen l).map (·.name)).Nodup := by
  induction l generalizing seen with
  | nil => simp [keepFirst]
  | cons p ps ih =>
    rw [keepFirst]
    by_cases hp : p.name ∈ seen
    · rw [if_pos hp]; exact ih seen
    · rw [if_neg hp]
      simp only [List.map_cons, List.nodup_cons]
      constructor
      · intro hcontra
        rcases List.mem_map.mp hcontra with ⟨q, hq, hqname⟩
        exact keepFirst_not_seen hq (by rw [hqname]; exact List.mem_cons_self _ _)
      · exact ih (p.name :: seen)

theorem keepFirst_complete {seen : List String} {l : List Participant} {p : Participant}
    (hmem : p ∈ l) (hseen : p.name ∉ seen) :
    ∃ q ∈ keepFirst seen l, q.name = p.name := by
  induction l generalizing seen with
  | nil => simp at hmem
  | cons p0 ps ih =>
    rw [keepFirst]
    by_cases hp : p0.name ∈ seen
    · rw [if_pos hp]
      rcases List.mem_cons.mp hmem with hq | hq
      · exact absurd (show p.name ∈ seen by rw [hq]; exact hp) hseen
      · exact ih hq hseen
    · rw [if_neg hp]
      by_cases hname : p.name = p0.name
      · exact ⟨p0, List.mem_cons_self _ _, hname.symm⟩
      · rcases List.mem_cons.mp hmem with hq | hq
        · exact absurd (congrArg Participant.name hq) hname
        · have hnot : p.name ∉ p0.name :: seen := by
            intro hc
            rcases List.mem_cons.mp hc with h1 | h1
            · exact hname h1
            · exact hseen h1
          rcases ih hq hnot with ⟨q, hq1, hq2⟩
          exact ⟨q, List.mem_cons_of_mem _ hq1, hq2⟩

theorem keepFirst_first_occ {seen : List String} {l : List Participant} {q : Participant}
    (h : q ∈ keepFirst seen l) :
    ∃ l₁ l₂, l = l₁ ++ q :: l₂ ∧ ∀ x ∈ l₁, x.name ≠ q.name ∨ x.name ∈ seen := by
  induction l generalizing seen with
  | nil => simp [keepFirst] at h
  | cons p ps ih =>
    rw [keepFirst] at h
    by_cases hp : p.name ∈ seen
    · rw [if_pos hp] at h
      rcases ih h with ⟨l₁, l₂, heq, hall⟩
      refine ⟨p :: l₁, l₂, by rw [heq]; rfl, ?_⟩
      intro x hx
      rcases List.mem_cons.mp hx with hx | hx
      · right; rw [hx]; exact hp
      · exact hall x hx
    · rw [if_neg hp] at h
      rcases List.mem_cons.mp h with hq | hq
      · exact ⟨[], ps, by simp [hq], by simp⟩
      · rcases ih hq with ⟨l₁, l₂, heq, hall⟩
        have hqname : q.name ∉ p.name :: seen := keepFirst_not_seen hq
        refine ⟨p :: l₁, l₂, by rw [heq]; rfl, ?_⟩
        intro x hx
        rcases List.mem_cons.mp hx with hx | hx
        · left
          rw [hx]
          intro hcontra
          exact hqname (by rw [← hcontra]; exact List.mem_cons_self _ _)
        · rcases hall x hx with hne | hin
          · exact Or.inl hne
          · rcases List.mem_cons.mp hin with hxp | hxs
            · left
              rw [hxp]
              intro hcontra
              exact hqname (by rw [← hcontra]; exact List.mem_cons_self _ _)
            · exact Or.inr hxs

/-! ## Lemmas about building participants from names and ids -/

theorem mkParticipants_names_sublist (names ids : List String) :
    List.Sublist ((mkParticipants names ids).map (·.name)) names := by
  induction names generalizing ids with
  | nil => simp [mkParticipants]
  | cons n ns ih =>
    cases ids with
    | nil => simp [mkParticipants]
    | cons i is =>
      simp only [mkParticipants, List.zip_cons_cons, List.map_cons]
      exact (ih is).cons₂ n

theorem mkParticipants_ids_sublist (names ids : List String) :
    List.Sublist ((mkParticipants names ids).map (·.id)) ids := by
  induction names generalizing ids with
  | nil => simp [mkParticipants]
  | cons n ns ih =>
    cases ids with
    | nil => simp [mkParticipants]
    | cons i is =>
      simp only [mkParticipants, List.zip_cons_cons, List.map_cons]
      exact (ih is).cons₂ i

theorem mkParticipants_mem_name {names ids : List String} {p : Participant}
    (h : p ∈ mkParticipants names ids) : p.name ∈ names := by
  rcases List.mem_map.mp h with ⟨ni, hni, hp⟩
  have := (List.of_mem_zip hni).1
  rw [← hp]
  exact this

theorem insertCmp_perm (x : Participant) (l : List Participant) (bs : List Bool) :
    List.Perm (insertCmp x l bs).1 (x :: l) := by
  induction l generalizing bs with
  | nil => simp [insertCmp]
  | cons y ys ih =>
    rw [insertCmp]
    by_cases hb : bs.headI
    · simp [hb]
    · simp only [hb, if_neg, Bool.false_eq_true, not_false_iff, if_false]
      exact ((ih bs.tail).cons y).trans (List.Perm.swap x y ys)

theorem sortCmp_perm (l : List Participant) (bs : List Bool) :
    List.Perm (sortCmp l bs).1 l := by
  induction l generalizing bs with
  | nil => simp [sortCmp]
  | cons x xs ih =>
    rw [sortCmp]
    exact (insertCmp_perm x _ _).trans ((ih bs).cons x)

theorem comparatorShuffle_perm (ps : List Participant) (bs : List Bool) :
    List.Perm (comparatorShuffle ps bs) ps :=
  sortCmp_perm ps bs

theorem chunksPos_ne_nil {s : Nat} {l : List Participant} (h : l ≠ []) :
    chunksPos s l ≠ [] := by
  cases l with
  | nil => exact absurd rfl h
  | cons x xs => rw [chunksPos]; simp

theorem chunksPos_flatten_aux (s : Nat) :
    ∀ (n : Nat) (l : List Participant), l.length ≤ n → (chunksPos s l).flatten = l := by
  intro n
  induction n with
  | zero =>
    intro l h
    have : l = [] := List.length_eq_zero.mp (Nat.le_zero.mp h)
    rw [this, chunksPos]
    rfl
  | succ n ih =>
    intro l h
    cases l with
    | nil => rw [chunksPos]; rfl
    | cons x xs =>
      rw [chunksPos, List.flatten_cons]
      rw [ih (xs.drop s)
        (by simp only [List.length_cons] at h; simp only [List.length_drop]; omega)]
      rw [← List.drop_succ_cons (n := s) (a := x)]
      exact List.take_append_drop (s + 1) (x :: xs)

theorem chunksPos_flatten (s : Nat) (l : List Participant) :
    (chunksPos s l).flatten = l :=
  chunksPos_flatten_aux s l.length l le_rfl

theorem chunksPos_length_sum (s : Nat) (l : List Participant) :
    ((chunksPos s l).map List.length).sum = l.length := by
  rw [← List.length_flatten, chunksPos_flatten]

theorem chunksPos_dropLast_aux (s : Nat) :
    ∀ (n : Nat) (l : List Participant), l.length ≤ n →
      ∀ g ∈ (chunksPos s l).dropLast, g.length = s + 1 := by
  intro n
  induction n with
  | zero =>
    intro l h
    have : l = [] := List.length_eq_zero.mp (Nat.le_zero.mp h)
    rw [this, chunksPos]
    simp
  | succ n ih =>
    intro l h g hg
    cases l with
    | nil => rw [chunksPos] at hg; simp at hg
    | cons x xs =>
      rw [chunksPos] at hg
      cases hrest : chunksPos s (xs.drop s) with
      | nil => rw [hrest] at hg; simp at hg
      | cons r rs =>
        rw [hrest, List.dropLast_cons₂, List.mem_cons] at hg
        have hdrop : xs.drop s ≠ [] := by
          intro hcontra
          rw [hcontra, chunksPos] at hrest
          exact List.noConfusion hrest
        have hs : s < xs.length := by
          by_contra hcontra
          exact hdrop (List.drop_eq_nil_of_le (by omega))
        rcases hg with hg | hg
        · rw [hg, List.length_take]
          simp only [List.length_cons]
          omega
        · have := ih (xs.drop s)
            (by simp only [List.length_cons] at h; simp only [List.length_drop]; omega) g
          rw [hrest] at this
          exact this hg

theorem chunksPos_dropLast (s : Nat) (l : List Participant) :
    ∀ g ∈ (chunksPos s l).dropLast, g.length = s + 1 :=
  chunksPos_dropLast_aux s l.length l le_rfl

theorem take_min (l : List Participant) (m : Nat) : l.take (min m l.length) = l.take m := by
  rcases Nat.le_total m l.length with h | h
  · rw [Nat.min_eq_left h]
  · rw [Nat.min_eq_right h, List.take_of_length_le h,
      List.take_of_length_le (by omega)]

theorem jsSlice_nonneg (l : List Participant) (j m : Nat) :
    jsSlice l (j : Int) (m : Int) = (l.drop j).take (m - j) := by
  unfold jsSlice
  have hj0 : ¬((j : Int) < 0) := by omega
  have hm0 : ¬((m : Int) < 0) := by omega
  simp only [if_neg hj0, if_neg hm0]
  have hmin1 : (min (j : Int) (l.length : Int)).toNat = min j l.length := by omega
  have hmin2 : (min (m : Int) (l.length : Int)).toNat = min m l.length := by omega
  rw [hmin1, hmin2, take_min]
  rcases Nat.le_total j l.length with hj | hj
  · rw [Nat.min_eq_left hj, List.drop_take]
  · rw [Nat.min_eq_right hj]
    have h1 : (l.take m).drop l.length = [] :=
      List.drop_eq_nil_of_le (by rw [List.length_take]; omega)
    have h2 : l.drop j = [] := List.drop_eq_nil_of_le hj
    rw [h1, h2, List.take_nil]

theorem chunkLoop_eq_chunksPos (s : Nat) (l : List Participant) :
    ∀ (fuel : Nat) (j : Nat) (acc : List (List Participant)),
      l.length - j < fuel →
      chunkLoop ((s : Int) + 1) l fuel (j : Int) acc =
        some (acc ++ chunksPos s (l.drop j)) := by
  intro fuel
  induction fuel with
  | zero => intro j acc h; omega
  | succ fuel ih =>
    intro j acc h
    rw [chunkLoop]
    by_cases hj : j < l.length
    · rw [if_pos (by exact_mod_cast hj)]
      have hcast : (j : Int) + ((s : Int) + 1) = ((j + (s + 1) : Nat) : Int) := by
        push_cast
        ring
      have hslice : jsSlice l (j : Int) ((j : Int) + ((s : Int) + 1)) =
          (l.drop j).take (s + 1) := by
        rw [hcast, jsSlice_nonneg]
        congr 1
        omega
      rw [hslice, hcast, ih (j + (s + 1)) _ (by omega)]
      have hne : l.drop j ≠ [] := by
        intro hcontra
        have hlen := congrArg List.length hcontra
        rw [List.length_drop, List.length_nil] at hlen
        omega
      rcases List.exists_cons_of_ne_nil hne with ⟨x, xs, hxs⟩
      have hchunks : chunksPos s (l.drop j) =
          (l.drop j).take (s + 1) :: chunksPos s (l.drop (j + (s + 1))) := by
        rw [hxs, chunksPos, ← hxs]
        congr 1
        have h1 : xs.drop s = (x :: xs).drop (s + 1) := (List.drop_succ_cons).symm
        rw [h1, ← hxs, List.drop_drop]
      rw [hchunks]
      simp
    · rw [if_neg (by exact_mod_cast hj)]
      have hdrop : l.drop j = [] := List.drop_eq_nil_of_le (by omega)
      rw [hdrop, chunksPos]
      simp

theorem chunkLoop_none_of_nonpos {size : Int} (hsize : size ≤ 0)
    {l : List Participant} (hl : l ≠ []) :
    ∀ (fuel : Nat) (i : Int), i ≤ 0 → ∀ acc, chunkLoop size l fuel i acc = none := by
  intro fuel
  induction fuel with
  | zero => intro i hi acc; rfl
  | succ fuel ih =>
    intro i hi acc
    rw [chunkLoop]
    have hlen : 0 < (l.length : Int) := by
      have := List.length_pos.mpr hl
      omega
    rw [if_pos (by omega)]
    exact ih (i + size) (by omega) _

/-! ## Running the tick loop to completion -/

theorem tickLoop_run (avail : List Participant) (r : Nat → Nat) (steps : Nat) :
    ∀ (fuel counter : Nat) (s : AppState), counter + fuel = steps → 1 ≤ fuel →
      tickLoop avail r steps fuel counter s =
        { s with currentWinner := some (pick avail (r steps)),
                 drawHistory := pick avail (r steps) :: s.drawHistory,
                 isDrawing := false } := by
  intro fuel
  induction fuel with
  | zero => intro counter s h h1; omega
  | succ fuel ih =>
    intro counter s h h1
    rw [tickLoop]
    by_cases hstop : steps ≤ counter + 1
    · have hcounter : counter + 1 = steps := by omega
      rw [if_pos hstop, hcounter]
    · rw [if_neg hstop]
      rw [ih (counter + 1) _ (by omega) (by omega)]

theorem startDraw_run (r : Nat → Nat) (s : AppState)
    (h : availableParticipants s ≠ []) :
    startDraw r s =
      { s with currentWinner := some (pick (availableParticipants s) (r 40)),
               drawHistory :=
                 pick (availableParticipants s) (r 40) :: s.drawHistory,
               isDrawing := false } := by
  simp only [startDraw]
  rw [if_neg (List.length_pos.mpr h).ne']
  rw [tickLoop_run _ _ _ _ _ _ (by norm_num) (by norm_num)]

theorem pick_mem {l : List Participant} (h : l ≠ []) (n : Nat) : pick l n ∈ l := by
  unfold pick
  have hlt : n % l.length < l.length := Nat.mod_lt _ (List.length_pos.mpr h)
  rw [List.getD_eq_getElem l _ hlt]
  exact List.getElem_mem hlt

theorem storeInv_sublist {l1 l2 : List Participant} (hsub : List.Sublist l1 l2)
    (h : StoreInv l2) : StoreInv l1 :=
  ⟨List.Nodup.sublist (hsub.map _) h.1, fun p hp => h.2 p (hsub.subset hp)⟩

theorem addParticipants_inv {dd : Bool} {ids names : List String}
    {ps : List Participant} (hinv : StoreInv ps)
    (hnames : ∀ n ∈ names, jsTrim n = n ∧ n ≠ "")
    (hnodup : (ps.map (·.id) ++ ids).Nodup) :
    StoreInv (addParticipants dd ids names ps) ∧
      List.Sublist ((addParticipants dd ids names ps).map (·.id))
        (ps.map (·.id) ++ ids) := by
  have hadded : ∀ dd' : Bool, List.Sublist
      ((if dd' then keepFirst (ps.map (·.name)) (mkParticipants names ids)
        else mkParticipants names ids)) (mkParticipants names ids) := by
    intro dd'
    cases dd'
    · simp
    · simp only [if_pos]
      exact keepFirst_sublist _ _
  have hids : List.Sublist
      ((addParticipants dd ids names ps).map (·.id)) (ps.map (·.id) ++ ids) := by
    rw [addParticipants, List.map_append]
    exact List.Sublist.append_left
      (((hadded dd).map _).trans (mkParticipants_ids_sublist names ids)) _
  refine ⟨⟨List.Nodup.sublist hids hnodup, ?_⟩, hids⟩
  intro p hp
  rw [addParticipants, List.mem_append] at hp
  rcases hp with hp | hp
  · exact hinv.2 p hp
  · have hmem : p ∈ mkParticipants names ids := (hadded dd).subset hp
    exact hnames p.name (mkParticipants_mem_name hmem)

theorem storeInv_runOps : ∀ (ops : List StoreOp) (ps : List Participant),
    StoreInv ps → (ps.map (·.id) ++ ops.flatMap opIds).Nodup →
    StoreInv (runOps ops ps) ∧
      List.Sublist ((runOps ops ps).map (·.id))
        (ps.map (·.id) ++ ops.flatMap opIds) := by
  intro ops
  induction ops with
  | nil =>
    intro ps hinv hnodup
    refine ⟨hinv, ?_⟩
    simp only [runOps, List.flatMap_nil, List.append_nil]
    exact List.Sublist.refl _
  | cons op ops ih =>
    intro ps hinv hnodup
    rw [List.flatMap_cons] at hnodup
    have hstep : StoreInv (applyOp ps op) ∧
        List.Sublist ((applyOp ps op).map (·.id)) (ps.map (·.id) ++ opIds op) := by
      cases op with
      | addFromLines t ids dd =>
        exact addParticipants_inv hinv (fun n hn => parseLines_mem hn)
          (List.Nodup.sublist
            (List.Sublist.append_left (List.sublist_append_left _ _) _) hnodup)
      | addFromRows cs ids dd =>
        exact addParticipants_inv hinv (fun n hn => parseCells_mem hn)
          (List.Nodup.sublist
            (List.Sublist.append_left (List.sublist_append_left _ _) _) hnodup)
      | dedup =>
        simp only [applyOp, opIds, deduplicate]
        refine ⟨storeInv_sublist (keepFirst_sublist _ _) hinv, ?_⟩
        exact ((keepFirst_sublist [] ps).map _).trans (List.sublist_append_left _ _)
      | remove i =>
        simp only [applyOp, opIds, removeParticipant]
        refine ⟨storeInv_sublist (List.filter_sublist ps) hinv, ?_⟩
        exact ((List.filter_sublist ps).map _).trans (List.sublist_append_left _ _)
      | clearAll =>
        refine ⟨⟨?_, ?_⟩, ?_⟩ <;> simp [applyOp]
    have hrec := ih (applyOp ps op) hstep.1
      (List.Nodup.sublist
        (by
          have := List.Sublist.append hstep.2 (List.Sublist.refl (ops.flatMap opIds))
          rwa [List.append_assoc] at this)
        hnodup)
    refine ⟨hrec.1, ?_⟩
    refine hrec.2.trans ?_
    have := List.Sublist.append hstep.2 (List.Sublist.refl (ops.flatMap opIds))
    rwa [List.append_assoc] at this

theorem addParticipants_names {dd : Bool} {ids names : List String}
    {ps : List Participant}
    (hps : ∀ p ∈ ps, jsTrim p.name = p.name ∧ p.name ≠ "")
    (hnames : ∀ n ∈ names, jsTrim n = n ∧ n ≠ "") :
    ∀ p ∈ addParticipants dd ids names ps,
      jsTrim p.name = p.name ∧ p.name ≠ "" := by
  intro p hp
  rw [addParticipants, List.mem_append] at hp
  rcases hp with hp | hp
  · exact hps p hp
  · have hmem : p ∈ mkParticipants names ids := by
      cases dd with
      | false => simpa using hp
      | true => exact (keepFirst_sublist _ _).subset (by simpa using hp)
    exact hnames p.name (mkParticipants_mem_name hmem)

/-- The non-empty-trimmed-name half of the store invariant is preserved by
every operation with no assumption at all on the ids. -/
theorem names_runOps : ∀ (ops : List StoreOp) (ps : List Participant),
    (∀ p ∈ ps, jsTrim p.name = p.name ∧ p.name ≠ "") →
    ∀ p ∈ runOps ops ps, jsTrim p.name = p.name ∧ p.name ≠ "" := by
  intro ops
  induction ops with
  | nil => intro ps hps; exact hps
  | cons op ops ih =>
    intro ps hps
    refine ih (applyOp ps op) ?_
    cases op with
    | addFromLines t ids dd =>
      exact addParticipants_names hps (fun n hn => parseLines_mem hn)
    | addFromRows cs ids dd =>
      exact addParticipants_names hps (fun n hn => parseCells_mem hn)
    | dedup =>
      exact fun p hp => hps p ((keepFirst_sublist _ _).subset hp)
    | remove i =>
      exact fun p hp => hps p ((List.filter_sublist ps).subset hp)
    | clearAll =>
      intro p hp
      simp [applyOp] at hp

/-! ## The claims -/

/-- Claim C1: the spec requires `handleGrouping` to shuffle with a fair
permutation, every ordering equally likely.  The code shuffles with
`sort(() => Math.random() - 0.5)`; under the stable comparison-sort model
with all eight equally-likely comparator-sign sequences of length three, the
identity ordering of three participants arises twice as often as the
ordering that swaps the first two, so the orderings are not equally likely.
(This is not an artifact of the model: any deterministic comparison sort
driven by fair coin comparisons gives every ordering a dyadic probability,
and 1/6 is not dyadic.) -/
theorem claim1_comparator_shuffle_not_uniform :
    shuffleCount [pA, pB, pC] [pA, pB, pC] 3 = 2 ∧
      shuffleCount [pA, pB, pC] [pB, pA, pC] 3 = 1 := by
  decide

/-- Claim C2: with a non-empty participant list and `groupSize = -1`
(reachable through the group-size input, whose handler stores any nonzero
`parseInt` result), `handleGrouping` neither no-ops nor reports an error:
its chunking loop never terminates, returning `none` for every amount of
fuel and every comparator random stream. -/
theorem claim2_nonpositive_group_size_diverges :
    (∀ (fuel : Nat) (bs : List Bool),
        handleGroupingFuel bs fuel negSizeState = none) ∧
      (groupSizeOnChange (some (-1)) negSizeState).groupSize = -1 := by
  constructor
  · intro fuel bs
    rw [handleGroupingFuel]
    rw [if_neg (by decide)]
    have hne : comparatorShuffle negSizeState.participants bs ≠ [] := by
      have hlen := (comparatorShuffle_perm negSizeState.participants bs).length_eq
      intro hcontra
      rw [hcontra] at hlen
      simp [negSizeState] at hlen
    rw [chunkLoop_none_of_nonpos (by decide) hne fuel 0 (by omega) []]
  · rfl

/-- Claim C3 counterexample: `startDraw` itself does not check the
in-progress flag; invoked on a state with `isDrawing = true` and a non-empty
eligible set it runs a full reveal and changes the state (here the history
gains an entry), so the claim that such a call leaves all state unchanged is
false of the `startDraw` function. -/
theorem claim3_startDraw_ignores_in_progress :
    drawingState.isDrawing = true ∧
      (startDraw (fun _ => 0) drawingState).drawHistory ≠
        drawingState.drawHistory := by
  decide

/-- Claim C3 (amended): the no-op guard lives on the DRAW NOW button, which
is disabled while `isDrawing`; pressing the button while a draw is in
progress therefore leaves the whole state unchanged. -/
theorem claim3_draw_button_noop_while_drawing (r : Nat → Nat) (s : AppState)
    (h : s.isDrawing = true) : drawButtonClick r s = s := by
  rw [drawButtonClick, h]
  rfl

/-- Witness for the amended claim C3 at a concrete in-progress state. -/
theorem claim3_draw_button_noop_witness :
    drawingState.isDrawing = true ∧
      drawButtonClick (fun _ => 0) drawingState = drawingState :=
  ⟨rfl, claim3_draw_button_noop_while_drawing (fun _ => 0) drawingState rfl⟩

/-- Claim C4 counterexample: ids come from
`Math.random().toString(36).substr(2, 9)` and are never checked for
uniqueness; if the generator yields the same string twice (two random values
agreeing on nine base-36 digits), one import call puts two participants with
the same id into the list. -/
theorem claim4_duplicate_ids_possible :
    ¬ ((runOps [StoreOp.addFromLines "A\nB" ["x", "x"] true] []).map
        (·.id)).Nodup := by
  decide

/-- Claim C4 (amended): for every sequence of store operations from a list
whose names already satisfy the invariant, every element of the resulting
list has a non-empty trimmed name, unconditionally — even when the random id
generator collides; and whenever the ids supplied across the sequence are
pairwise distinct and fresh with respect to the starting list, the resulting
list additionally contains no two elements with the same id. -/
theorem claim4_invariant_under_fresh_ids (ops : List StoreOp)
    (ps : List Participant)
    (hnames : ∀ p ∈ ps, jsTrim p.name = p.name ∧ p.name ≠ "") :
    (∀ p ∈ runOps ops ps, jsTrim p.name = p.name ∧ p.name ≠ "") ∧
      ((ps.map (·.id) ++ ops.flatMap opIds).Nodup →
        ((runOps ops ps).map (·.id)).Nodup) := by
  refine ⟨names_runOps ops ps hnames, fun hfresh => ?_⟩
  have hnodup : (ps.map (·.id)).Nodup :=
    List.Nodup.sublist (List.sublist_append_left _ _) hfresh
  exact (storeInv_runOps ops ps ⟨hnodup, hnames⟩ hfresh).1.1

/-- Witness for the amended claim C4: an import of two names from the empty
store; the name invariant holds, and with the two supplied ids distinct the
id part applies as well. -/
theorem claim4_invariant_witness :
    (∀ p ∈ ([] : List Participant), jsTrim p.name = p.name ∧ p.name ≠ "") ∧
      ((∀ p ∈ runOps [StoreOp.addFromLines "A\nB" ["x", "y"] true] [],
          jsTrim p.name = p.name ∧ p.name ≠ "") ∧
        ((([] : List Participant).map (·.id) ++
            [StoreOp.addFromLines "A\nB" ["x", "y"] true].flatMap opIds).Nodup →
          ((runOps [StoreOp.addFromLines "A\nB" ["x", "y"] true] []).map
            (·.id)).Nodup)) :=
  ⟨by decide, claim4_invariant_under_fresh_ids _ _ (by decide)⟩

/-- Claim C5: for every non-empty eligible set, a completed `startDraw`
grows the history by exactly one, and the new head is a member of the
eligible set computed from the pre-draw state (the model samples every tick
from the one list captured at draw start). -/
theorem claim5_draw_appends_one_eligible_winner (r : Nat → Nat) (s : AppState)
    (h : availableParticipants s ≠ []) :
    (startDraw r s).drawHistory.length = s.drawHistory.length + 1 ∧
      ∃ w, (startDraw r s).drawHistory = w :: s.drawHistory ∧
        w ∈ availableParticipants s := by
  rw [startDraw_run r s h]
  exact ⟨by simp, pick (availableParticipants s) (r 40), rfl, pick_mem h _⟩

/-- Witness for claim C5 at a concrete two-participant idle state. -/
theorem claim5_draw_appends_one_eligible_winner_witness :
    availableParticipants idleState ≠ [] ∧
      ((startDraw (fun _ => 0) idleState).drawHistory.length =
          idleState.drawHistory.length + 1 ∧
        ∃ w, (startDraw (fun _ => 0) idleState).drawHistory =
            w :: idleState.drawHistory ∧ w ∈ availableParticipants idleState) :=
  ⟨by decide,
    claim5_draw_appends_one_eligible_winner (fun _ => 0) idleState (by decide)⟩

/-- Claim C6: for a non-empty participant list and `groupSize ≥ 1`,
`handleGrouping` terminates (fuel one more than the participant count
suffices) and replaces the groups with a partition whose group lengths sum
to the participant count, in which every group but possibly the last has
exactly `groupSize` members, and whose concatenation is a permutation of the
participant list. -/
theorem claim6_grouping_partitions (bs : List Bool) (s : AppState)
    (hne : s.participants ≠ []) (hsize : 1 ≤ s.groupSize) :
    ∃ gs, handleGroupingFuel bs (s.participants.length + 1) s =
        some { s with groups := gs } ∧
      (gs.map List.length).sum = s.participants.length ∧
      (∀ g ∈ gs.dropLast, g.length = s.groupSize.toNat) ∧
      List.Perm gs.flatten s.participants := by
  obtain ⟨m, hm⟩ : ∃ m, s.groupSize.toNat = m + 1 :=
    ⟨s.groupSize.toNat - 1, by omega⟩
  have hcast : s.groupSize = (m : Int) + 1 := by omega
  have hperm := comparatorShuffle_perm s.participants bs
  have hlen : (comparatorShuffle s.participants bs).length =
      s.participants.length := hperm.length_eq
  refine ⟨chunksPos m (comparatorShuffle s.participants bs), ?_, ?_, ?_, ?_⟩
  · rw [handleGroupingFuel,
      if_neg (by simpa using (List.length_pos.mpr hne).ne')]
    have hloop := chunkLoop_eq_chunksPos m (comparatorShuffle s.participants bs)
      (s.participants.length + 1) 0 [] (by omega)
    rw [hcast]
    simp only [Nat.cast_zero, List.drop_zero, List.nil_append] at hloop
    rw [hloop]
  · rw [chunksPos_length_sum, hlen]
  · intro g hg
    rw [hm]
    exact chunksPos_dropLast m _ g hg
  · rw [chunksPos_flatten]
    exact hperm

/-- Witness for claim C6: five participants in groups of two. -/
theorem claim6_grouping_partitions_witness :
    groupingState.participants ≠ [] ∧ 1 ≤ groupingState.groupSize ∧
      (∃ gs, handleGroupingFuel [] (groupingState.participants.length + 1)
            groupingState = some { groupingState with groups := gs } ∧
        (gs.map List.length).sum = groupingState.participants.length ∧
        (∀ g ∈ gs.dropLast, g.length = groupingState.groupSize.toNat) ∧
        List.Perm gs.flatten groupingState.participants) :=
  ⟨by decide, by decide,
    claim6_grouping_partitions [] groupingState (by decide) (by decide)⟩

/-- Claim C7: importing text with dedupe on never adds a name already in the
store (case-sensitive match on the trimmed name) nor two equal names in one
call; survivors are appended at the end in input order (their name sequence
is a subsequence of the parsed input lines), blank lines are discarded, and
empty input leaves the list unchanged. -/
theorem claim7_add_dedupe_spec (ids : List String) (text : String)
    (ps : List Participant) :
    (∃ added, handleAddFromText true ids text ps = ps ++ added ∧
      (∀ p ∈ added, p.name ∉ ps.map (·.name)) ∧
      ((added.map (·.name)).Nodup) ∧
      List.Sublist (added.map (·.name)) (parseLines text) ∧
      ∀ p ∈ added, p.name ≠ "") ∧
    handleAddFromText true ids "" ps = ps := by
  constructor
  · refine ⟨keepFirst (ps.map (·.name)) (mkParticipants (parseLines text) ids),
      by rfl, ?_, keepFirst_names_nodup _ _, ?_, ?_⟩
    · intro p hp
      exact keepFirst_not_seen hp
    · exact ((keepFirst_sublist _ _).map _).trans
        (mkParticipants_names_sublist _ _)
    · intro p hp
      have hmem : p ∈ mkParticipants (parseLines text) ids :=
        (keepFirst_sublist _ _).subset hp
      exact (parseLines_mem (mkParticipants_mem_name hmem)).2
  · have hempty : parseLines "" = [] := by decide
    simp [handleAddFromText, addParticipants, hempty, mkParticipants, keepFirst]

/-- Witness for claim C7 at a concrete input overlapping the store. -/
theorem claim7_add_dedupe_spec_witness :
    (∃ added, handleAddFromText true ["i1", "i2", "i3"] " Alice \nBob\n\nAlice"
          [⟨"p1", "Bob"⟩] = [⟨"p1", "Bob"⟩] ++ added ∧
      (∀ p ∈ added, p.name ∉ [Participant.mk "p1" "Bob"].map (·.name)) ∧
      ((added.map (·.name)).Nodup) ∧
      List.Sublist (added.map (·.name)) (parseLines " Alice \nBob\n\nAlice") ∧
      ∀ p ∈ added, p.name ≠ "") ∧
    handleAddFromText true ["i1", "i2", "i3"] "" [⟨"p1", "Bob"⟩] =
      [⟨"p1", "Bob"⟩] :=
  claim7_add_dedupe_spec ["i1", "i2", "i3"] " Alice \nBob\n\nAlice"
    [⟨"p1", "Bob"⟩]

/-- Claim C8: `deduplicate` keeps each name exactly once, in order of first
occurrence: the result has pairwise-distinct names, is a subsequence of the
input (so surviving entries keep their original relative positions), covers
every input name, and every kept entry is a first occurrence (no
earlier entry shares its name). -/
theorem claim8_deduplicate_spec (ps : List Participant) :
    ((deduplicate ps).map (·.name)).Nodup ∧
      List.Sublist (deduplicate ps) ps ∧
      (∀ p ∈ ps, ∃ q ∈ deduplicate ps, q.name = p.name) ∧
      ∀ q ∈ deduplicate ps, ∃ l₁ l₂, ps = l₁ ++ q :: l₂ ∧
        ∀ x ∈ l₁, x.name ≠ q.name := by
  refine ⟨keepFirst_names_nodup [] ps, keepFirst_sublist [] ps, ?_, ?_⟩
  · intro p hp
    exact keepFirst_complete hp (by simp)
  · intro q hq
    rcases keepFirst_first_occ hq with ⟨l₁, l₂, heq, hall⟩
    refine ⟨l₁, l₂, heq, fun x hx => ?_⟩
    rcases hall x hx with h | h
    · exact h
    · simp at h

/-- Witness for claim C8 on a list with a duplicated name. -/
theorem claim8_deduplicate_spec_witness :
    ((deduplicate [pA, pB, ⟨"3", "A"⟩]).map (·.name)).Nodup ∧
      List.Sublist (deduplicate [pA, pB, ⟨"3", "A"⟩]) [pA, pB, ⟨"3", "A"⟩] ∧
      (∀ p ∈ [pA, pB, Participant.mk "3" "A"],
        ∃ q ∈ deduplicate [pA, pB, ⟨"3", "A"⟩], q.name = p.name) ∧
      ∀ q ∈ deduplicate [pA, pB, ⟨"3", "A"⟩],
        ∃ l₁ l₂, [pA, pB, Participant.mk "3" "A"] = l₁ ++ q :: l₂ ∧
          ∀ x ∈ l₁, x.name ≠ q.name :=
  claim8_deduplicate_spec [pA, pB, ⟨"3", "A"⟩]

/-- Claim C9: `clearParticipants` empties the participant list, the draw
history and the groups, in every state. -/
theorem claim9_clear_empties_all (s : AppState) :
    (clearParticipants s).participants = [] ∧
      (clearParticipants s).drawHistory = [] ∧
      (clearParticipants s).groups = [] :=
  ⟨rfl, rfl, rfl⟩

/-- Claim C10: the history Clear button empties the draw history and changes
nothing else: participants, groups, the displayed winner, the in-progress
flag, the repeat policy and the group size are all untouched. -/
theorem claim10_clear_history_frame (s : AppState) :
    (clearHistory s).drawHistory = [] ∧
      (clearHistory s).participants = s.participants ∧
      (clearHistory s).groups = s.groups ∧
      (clearHistory s).currentWinner = s.currentWinner ∧
      (clearHistory s).isDrawing = s.isDrawing ∧
      (clearHistory s).allowRepeat = s.allowRepeat ∧
      (clearHistory s).groupSize = s.groupSize :=
  ⟨rfl, rfl, rfl, rfl, rfl, rfl, rfl⟩

end LuckyDraw
